import Mathlib

/-!
Verification of the tic-tac-toe game engine in `src/bjkl_frontend/src/App.js`.

The engine state held by the `TicTacToeGame` React component consists of
`history` (a list of board snapshots), `stepNumber` (the current index into
the history) and `xIsNext` (the persisted turn flag).  Boards are JavaScript
arrays of 9 entries, each `null`, `"X"` or `"O"`; we model a cell as
`Option Player` (with `none` standing for both `null` and `undefined`, which
behave identically in every read the component performs: both are falsy and
neither is `"X"`/`"O"`) and a board as a `List Cell`.

JavaScript array reads out of range yield `undefined` (modelled by the
default `none` of `jsGet`); writes beyond the current length extend the
array (modelled by `jsSet` padding with `none`).  Negative indices, which
the UI never produces, are outside this model.

All indices supplied by the excluded UI layer are in range: the `Board`
component only raises clicks for cells 0..8, and `MoveHistory` only offers
jump targets `0 .. history.length - 1`.  The `Reachable` predicate closes
the initial state under exactly those calls, which is therefore the set of
states the running program can be in.
-/

namespace TicTacToe

/-- Player marks: `X` is PlayerA (the first player), `O` is PlayerB. -/
inductive Player where
  | X
  | O
deriving DecidableEq

/-- A cell of the board: `none` models JavaScript `null`/`undefined`. -/
abbrev Cell := Option Player

/-- A board: the JS code uses `Array(9).fill(null)` and copies of it. -/
abbrev Board := List Cell

/-- Read `squares[i]`: JS array indexing, `undefined` (`none`) out of range. -/
def jsGet (b : Board) (i : Nat) : Cell :=
  b.getD i none

/-- Write `squares[i] = v`: JS array element assignment.  Writing past the
end of the array grows it; the skipped positions are holes, which every
read in this program sees as `undefined`, hence `none`. -/
def jsSet : Board → Nat → Cell → Board
  | [], 0, v => [v]
  | [], n + 1, v => none :: jsSet [] n v
  | _ :: xs, 0, v => v :: xs
  | x :: xs, n + 1, v => x :: jsSet xs n v

/-- The fresh board `Array(9).fill(null)`. -/
def emptyBoard : Board := List.replicate 9 none

/-- The `lines` literal of `calculateWinner`: 3 rows, 3 columns, 2
diagonals, in that enumeration order. -/
def lines : List (Nat × Nat × Nat) :=
  [(0, 1, 2), (3, 4, 5), (6, 7, 8),
   (0, 3, 6), (1, 4, 7), (2, 5, 8),
   (0, 4, 8), (2, 4, 6)]

/-- One iteration of the loop body of `calculateWinner`: the line `(a,b,c)`
matches when `squares[a]` is truthy and `squares[a] === squares[b]` and
`squares[a] === squares[c]`; the result carries `squares[a]` and the line. -/
def lineWinner (squares : Board) (l : Nat × Nat × Nat) :
    Option (Player × (Nat × Nat × Nat)) :=
  match jsGet squares l.1 with
  | none => none
  | some p =>
      if jsGet squares l.2.1 = some p ∧ jsGet squares l.2.2 = some p then
        some (p, l)
      else
        none

/-- The `calculateWinner` utility: the first matching line in the fixed
order of `lines`, or `null` (`none`) when no line matches. -/
def calculateWinner (squares : Board) : Option (Player × (Nat × Nat × Nat)) :=
  lines.findSome? (lineWinner squares)

/-- The `draw` flag computed in `TicTacToeGame`:
`!winnerObj && currentSquares.every(square => square !== null)`. -/
def isDraw (squares : Board) : Bool :=
  (calculateWinner squares).isNone && squares.all (·.isSome)

/-- Outcome of a board, as the spec classifies it: the render of
`TicTacToeGame` derives `winnerObj` and `draw` from the board at
`CurrentIndex` and every view branches on exactly these two flags. -/
inductive Outcome where
  | Undecided
  | Win (p : Player) (line : Nat × Nat × Nat)
  | Draw
deriving DecidableEq

/-- The outcome the component derives from a board. -/
def outcome (squares : Board) : Outcome :=
  match calculateWinner squares with
  | some (p, l) => .Win p l
  | none => if squares.all (·.isSome) then .Draw else .Undecided

/-- The React state of `TicTacToeGame`:
`useState([Array(9).fill(null)])`, `useState(0)`, `useState(true)`. -/
structure GameState where
  history : List Board
  stepNumber : Nat
  xIsNext : Bool
deriving DecidableEq

/-- The initial component state. -/
def initState : GameState :=
  { history := [emptyBoard], stepNumber := 0, xIsNext := true }

/-- The board rendered and validated against: `history[stepNumber]`. -/
def currentBoard (s : GameState) : Board :=
  s.history.getD s.stepNumber []

/-- The `handleClick(i)` handler.  `winnerObj` is computed in the render
scope from `history[stepNumber]` (here `currentBoard s`); the local
`historyUpToStep` is `history.slice(0, stepNumber + 1)` and `current` is
its last entry — both locals are inlined below.  On rejection the state is
returned untouched; on acceptance the truncated history plus the new board
is stored, `stepNumber` becomes the truncated length, and `xIsNext` flips. -/
def handleClick (i : Nat) (s : GameState) : GameState :=
  if (calculateWinner (currentBoard s)).isSome
      || (jsGet ((s.history.take (s.stepNumber + 1)).getLastD []) i).isSome then
    s
  else
    { history := s.history.take (s.stepNumber + 1)
        ++ [jsSet ((s.history.take (s.stepNumber + 1)).getLastD []) i
              (some (if s.xIsNext then Player.X else Player.O))],
      stepNumber := (s.history.take (s.stepNumber + 1)).length,
      xIsNext := !s.xIsNext }

/-- The `resetGame` handler. -/
def resetGame (_ : GameState) : GameState :=
  { history := [emptyBoard], stepNumber := 0, xIsNext := true }

/-- The `jumpTo(move)` handler: sets `stepNumber` unconditionally and
re-derives `xIsNext` from the parity of the target. -/
def jumpTo (move : Nat) (s : GameState) : GameState :=
  { s with stepNumber := move, xIsNext := decide (move % 2 = 0) }

/-- The `useEffect` on `[stepNumber]`: whenever the step is 0 it forces
`xIsNext` to `true`.  It runs after the render triggered by each state
update, so we compose it after every handler. -/
def useEffectStep (s : GameState) : GameState :=
  if s.stepNumber = 0 then { s with xIsNext := true } else s

/-- Fold a list of cell clicks through the engine, effect included. -/
def playMoves (moves : List Nat) (s : GameState) : GameState :=
  moves.foldl (fun t i => useEffectStep (handleClick i t)) s

/-- States the running program can reach: the initial state, closed under
the three handlers with the arguments the UI can actually supply (clicks on
cells 0..8, jumps to existing history indices), each followed by the
`useEffect` synchronisation. -/
inductive Reachable : GameState → Prop where
  | init : Reachable initState
  | click {s : GameState} {i : Nat} :
      Reachable s → i ≤ 8 → Reachable (useEffectStep (handleClick i s))
  | reset {s : GameState} :
      Reachable s → Reachable (useEffectStep (resetGame s))
  | jump {s : GameState} {m : Nat} :
      Reachable s → m < s.history.length → Reachable (useEffectStep (jumpTo m s))

/-- The mark `handleClick` writes: `xIsNext ? "X" : "O"`. -/
def markToPlace (s : GameState) : Player :=
  if s.xIsNext then .X else .O

/-- Two consecutive history entries differ by exactly one cell changed from
Empty to a player mark: same length, one position `j` previously `none` now
holding a mark, all other reads unchanged. -/
def diffOne (b b' : Board) : Prop :=
  b'.length = b.length ∧ ∃ j p, j < b.length ∧ jsGet b j = none ∧
    jsGet b' j = some p ∧ ∀ k, k ≠ j → jsGet b' k = jsGet b k

/-- Invariant of every reachable state. -/
structure Inv (s : GameState) : Prop where
  step_lt : s.stepNumber < s.history.length
  head_empty : s.history.getD 0 [] = emptyBoard
  len9 : ∀ b ∈ s.history, b.length = 9
  chain : ∀ i, i + 1 < s.history.length →
    diffOne (s.history.getD i []) (s.history.getD (i + 1) [])
  parity : s.xIsNext = decide (s.stepNumber % 2 = 0)

/-- Spec wording for the Outcome Evaluator: a line wins if its three cells
are equal and non-Empty. -/
def satLineB (b : Board) (l : Nat × Nat × Nat) : Bool :=
  match jsGet b l.1, jsGet b l.2.1, jsGet b l.2.2 with
  | some p, some q, some r => decide (p = q) && decide (p = r)
  | _, _, _ => false

/-- Spec wording for the tie-break policy: the winner is the first
satisfied line in the fixed enumeration order of `lines`, with the mark it
holds. -/
def specWinner (b : Board) : Option (Player × (Nat × Nat × Nat)) :=
  (lines.find? (satLineB b)).bind fun l => (jsGet b l.1).map fun p => (p, l)

/-- The three shapes of status line `GameStatus` can render:
"Winner: p", "It's a draw!", "Next player: p". -/
inductive Status where
  | winner (p : Player)
  | draw
  | nextPlayer (p : Player)
deriving DecidableEq

/-- The `GameStatus` component: branches on `winner`, then `draw`, else
shows `xIsNext ? "X" : "O"` as the next player. -/
def gameStatus (winner : Option Player) (draw : Bool) (xIsNext : Bool) : Status :=
  match winner with
  | some p => .winner p
  | none => if draw then .draw else .nextPlayer (if xIsNext then .X else .O)

/-- The status line rendered for state `s`: `TicTacToeGame` passes
`winnerObj?.winner`, the `draw` flag and `xIsNext` to `GameStatus`. -/
def statusOf (s : GameState) : Status :=
  gameStatus ((calculateWinner (currentBoard s)).map Prod.fst)
    (isDraw (currentBoard s)) s.xIsNext

/-- The `winningLine` prop handed to `Board` for highlighting:
`winnerObj ? winnerObj.line : null`. -/
def winningLineOf (s : GameState) : Option (Nat × Nat × Nat) :=
  (calculateWinner (currentBoard s)).map Prod.snd

/-! ### Basic facts about the JS array operations -/

theorem jsGet_nil (i : Nat) : jsGet [] i = none := by
  cases i <;> rfl

theorem jsSet_length_of_lt :
    ∀ (b : Board) (i : Nat) (v : Cell), i < b.length → (jsSet b i v).length = b.length
  | [], i, _, h => absurd h (by simp)
  | _ :: _, 0, _, _ => rfl
  | x :: xs, i + 1, v, h => by
      simpa [jsSet] using jsSet_length_of_lt xs i v (by simpa using h)

theorem jsSet_length_of_ge :
    ∀ (b : Board) (i : Nat) (v : Cell), b.length ≤ i → (jsSet b i v).length = i + 1
  | [], 0, _, _ => rfl
  | [], i + 1, v, _ => by
      simpa [jsSet] using jsSet_length_of_ge [] i v (by simp)
  | _ :: _, 0, _, h => absurd h (by simp)
  | x :: xs, i + 1, v, h => by
      simpa [jsSet] using jsSet_length_of_ge xs i v (by simpa using h)

theorem jsGet_jsSet_self :
    ∀ (b : Board) (i : Nat) (v : Cell), jsGet (jsSet b i v) i = v
  | [], 0, _ => rfl
  | [], i + 1, v => by
      simpa [jsSet, jsGet] using jsGet_jsSet_self [] i v
  | _ :: _, 0, _ => rfl
  | x :: xs, i + 1, v => by
      simpa [jsSet, jsGet] using jsGet_jsSet_self xs i v

theorem jsGet_jsSet_ne :
    ∀ (b : Board) (i k : Nat) (v : Cell), k ≠ i → jsGet (jsSet b i v) k = jsGet b k := by
  intro b
  induction b with
  | nil =>
      intro i k v hk
      rw [jsGet_nil]
      induction i generalizing k with
      | zero =>
          cases k with
          | zero => exact absurd rfl hk
          | succ k => rfl
      | succ i ih =>
          cases k with
          | zero => rfl
          | succ k =>
              simpa [jsSet, jsGet] using ih k (fun h => hk (by omega))
  | cons x xs ih =>
      intro i k v hk
      cases i with
      | zero =>
          cases k with
          | zero => exact absurd rfl hk
          | succ k => rfl
      | succ i =>
          cases k with
          | zero => rfl
          | succ k =>
              simpa [jsSet, jsGet] using ih i k v (fun h => hk (by omega))

theorem getLastD_take {α : Type} :
    ∀ (l : List α) (n : Nat) (d : α), n < l.length → (l.take (n + 1)).getLastD d = l.getD n d := by
  intro l
  induction l with
  | nil => intro n d h; simp at h
  | cons a t ih =>
      intro n d h
      cases n with
      | zero => simp
      | succ n =>
          have hn : n < t.length := by simpa using h
          have hne : t.take (n + 1) ≠ [] := by
            have : (t.take (n + 1)).length = n + 1 := by
              simp [List.length_take]
              omega
            intro hnil
            rw [hnil] at this
            simp at this
          calc ((a :: t).take (n + 1 + 1)).getLastD d
              = (a :: t.take (n + 1)).getLastD d := by rw [List.take_succ_cons]
            _ = (t.take (n + 1)).getLastD a := by
                  rw [List.getLastD_cons]
            _ = t.getD n a := ih n a hn
            _ = t.getD n d := by
                  rw [List.getD_eq_getElem _ _ hn, List.getD_eq_getElem _ _ hn]
            _ = (a :: t).getD (n + 1) d := by simp

theorem getD_take {α : Type} (l : List α) (n k : Nat) (d : α) (h : k < n) :
    (l.take n).getD k d = l.getD k d := by
  rcases Nat.lt_or_ge k l.length with hk | hk
  · have hk' : k < (l.take n).length := by
      simp [List.length_take]
      omega
    rw [List.getD_eq_getElem _ _ hk', List.getD_eq_getElem _ _ hk]
    simp [List.getElem_take]
  · have hk' : (l.take n).length ≤ k := by
      simp [List.length_take]
      omega
    rw [List.getD_eq_default _ _ hk', List.getD_eq_default _ _ hk]

theorem jsGet_emptyBoard (k : Nat) : jsGet emptyBoard k = none := by
  have h : ∀ (n j : Nat), jsGet (List.replicate n (none : Cell)) j = none := by
    intro n
    induction n with
    | zero => intro j; exact jsGet_nil j
    | succ n ih =>
        intro j
        cases j with
        | zero => rfl
        | succ j => simp [jsGet, List.replicate]
  exact h 9 k

theorem parity_flip (c : Nat) : (!decide (c % 2 = 0)) = decide ((c + 1) % 2 = 0) := by
  by_cases h : c % 2 = 0
  · have h2 : ¬ (c + 1) % 2 = 0 := by omega
    simp [h, h2]
  · have h2 : (c + 1) % 2 = 0 := by omega
    simp [h, h2]

/-! ### The engine invariant -/

theorem inv_init : Inv initState := by
  refine ⟨?_, ?_, ?_, ?_, ?_⟩ <;> simp [initState, emptyBoard]

theorem currentBoard_len9 {s : GameState} (h : Inv s) : (currentBoard s).length = 9 := by
  have hm : currentBoard s ∈ s.history := by
    rw [currentBoard, List.getD_eq_getElem _ _ h.step_lt]
    exact List.getElem_mem _
  exact h.len9 _ hm

theorem inv_useEffect {s : GameState} (h : Inv s) : Inv (useEffectStep s) := by
  rw [useEffectStep]
  by_cases h0 : s.stepNumber = 0
  · rw [if_pos h0]
    exact ⟨h.step_lt, h.head_empty, h.len9, h.chain, by simp [h0]⟩
  · rw [if_neg h0]
    exact h

theorem inv_reset (s : GameState) : Inv (resetGame s) := by
  refine ⟨?_, ?_, ?_, ?_, ?_⟩ <;> simp [resetGame, emptyBoard]

theorem inv_jump {s : GameState} {m : Nat} (h : Inv s) (hm : m < s.history.length) :
    Inv (jumpTo m s) :=
  ⟨hm, h.head_empty, h.len9, h.chain, rfl⟩

/-! ### Shape of `handleClick` on acceptance and rejection -/

theorem current_eq_currentBoard {s : GameState} (h : s.stepNumber < s.history.length) :
    (s.history.take (s.stepNumber + 1)).getLastD [] = currentBoard s :=
  getLastD_take s.history s.stepNumber [] h

theorem handleClick_rejected {s : GameState} {i : Nat}
    (h : (calculateWinner (currentBoard s)).isSome
        ∨ (jsGet ((s.history.take (s.stepNumber + 1)).getLastD []) i).isSome) :
    handleClick i s = s := by
  have hcond : ((calculateWinner (currentBoard s)).isSome
      || (jsGet ((s.history.take (s.stepNumber + 1)).getLastD []) i).isSome) = true := by
    rcases h with h | h
    · rw [h, Bool.true_or]
    · rw [h, Bool.or_true]
  rw [handleClick, if_pos hcond]

theorem handleClick_accepted {s : GameState} {i : Nat}
    (hstep : s.stepNumber < s.history.length)
    (hw : calculateWinner (currentBoard s) = none)
    (hc : jsGet (currentBoard s) i = none) :
    handleClick i s =
      { history := s.history.take (s.stepNumber + 1)
          ++ [jsSet (currentBoard s) i (some (markToPlace s))],
        stepNumber := s.stepNumber + 1,
        xIsNext := !s.xIsNext } := by
  have hcur := current_eq_currentBoard hstep
  have htlen : (s.history.take (s.stepNumber + 1)).length = s.stepNumber + 1 := by
    rw [List.length_take]
    omega
  have hcond : ¬ (((calculateWinner (currentBoard s)).isSome
      || (jsGet ((s.history.take (s.stepNumber + 1)).getLastD []) i).isSome) = true) := by
    rw [hcur]
    simp [hw, hc]
  rw [handleClick, if_neg hcond, hcur, htlen, markToPlace]

theorem accepted_length {s : GameState} {i : Nat}
    (hstep : s.stepNumber < s.history.length)
    (hw : calculateWinner (currentBoard s) = none)
    (hc : jsGet (currentBoard s) i = none) :
    (handleClick i s).history.length = s.stepNumber + 2 := by
  rw [handleClick_accepted hstep hw hc]
  simp only [List.length_append, List.length_take, List.length_cons, List.length_nil]
  omega

theorem inv_click {s : GameState} {i : Nat} (h : Inv s) (hi : i ≤ 8) :
    Inv (handleClick i s) := by
  by_cases hw : (calculateWinner (currentBoard s)).isSome
  · rw [handleClick_rejected (Or.inl hw)]
    exact h
  by_cases hc : (jsGet (currentBoard s) i).isSome
  · rw [handleClick_rejected (Or.inr (by rw [current_eq_currentBoard h.step_lt]; exact hc))]
    exact h
  have hw' : calculateWinner (currentBoard s) = none := by
    rcases hq : calculateWinner (currentBoard s) with _ | q
    · rfl
    · rw [hq] at hw
      simp at hw
  have hc' : jsGet (currentBoard s) i = none := by
    rcases hq : jsGet (currentBoard s) i with _ | q
    · rfl
    · rw [hq] at hc
      simp at hc
  have hcur9 : (currentBoard s).length = 9 := currentBoard_len9 h
  have hi9 : i < (currentBoard s).length := by omega
  have hsq9 : (jsSet (currentBoard s) i (some (markToPlace s))).length = 9 := by
    rw [jsSet_length_of_lt _ _ _ hi9]
    exact hcur9
  rw [handleClick_accepted h.step_lt hw' hc']
  have hstep := h.step_lt
  have htlen : (s.history.take (s.stepNumber + 1)).length = s.stepNumber + 1 := by
    rw [List.length_take]
    omega
  have hgetD_new : ∀ k, k < s.stepNumber + 1 →
      (s.history.take (s.stepNumber + 1)
        ++ [jsSet (currentBoard s) i (some (markToPlace s))]).getD k []
      = s.history.getD k [] := by
    intro k hk
    rw [List.getD_append _ _ _ _ (by omega)]
    exact getD_take _ _ _ _ hk
  have hgetD_last :
      (s.history.take (s.stepNumber + 1)
        ++ [jsSet (currentBoard s) i (some (markToPlace s))]).getD (s.stepNumber + 1) []
      = jsSet (currentBoard s) i (some (markToPlace s)) := by
    rw [List.getD_append_right _ _ _ _ (by omega), htlen]
    simp
  refine ⟨?_, ?_, ?_, ?_, ?_⟩
  · simp only [List.length_append, htlen, List.length_cons, List.length_nil]
    omega
  · rw [hgetD_new 0 (by omega)]
    exact h.head_empty
  · intro b hb
    rcases List.mem_append.mp hb with hb | hb
    · exact h.len9 b (List.take_subset _ _ hb)
    · rw [List.mem_singleton.mp hb]
      exact hsq9
  · intro k hk
    simp only [List.length_append, htlen, List.length_cons, List.length_nil] at hk
    rcases Nat.lt_or_ge (k + 1) (s.stepNumber + 1) with hk1 | hk1
    · rw [hgetD_new k (by omega), hgetD_new (k + 1) hk1]
      exact h.chain k (by omega)
    · have hkc : k = s.stepNumber := by omega
      rw [hkc, hgetD_new s.stepNumber (by omega), hgetD_last]
      exact ⟨by rw [hsq9, ← hcur9]; rfl, i, markToPlace s, hi9, hc',
        jsGet_jsSet_self _ _ _, fun j hj => jsGet_jsSet_ne _ _ _ _ hj⟩
  · rw [h.parity]
    exact parity_flip s.stepNumber

/-- Every reachable state satisfies the invariant. -/
theorem reachable_inv {s : GameState} (h : Reachable s) : Inv s := by
  induction h with
  | init => exact inv_init
  | click _ hi ih => exact inv_useEffect (inv_click ih hi)
  | reset _ _ => exact inv_useEffect (inv_reset _)
  | jump _ hm ih => exact inv_useEffect (inv_jump ih hm)

/-! ### Characterisation of the Outcome Evaluator

`satLineB` renders the spec's wording — a line wins if its three cells are
equal and non-Empty — and `specWinner` the spec's tie-break policy: the
first satisfied line in the fixed enumeration order of `lines`. -/

theorem lineWinner_eq_ite (b : Board) (l : Nat × Nat × Nat) :
    lineWinner b l =
      if satLineB b l then (jsGet b l.1).map (fun p => (p, l)) else none := by
  rcases h1 : jsGet b l.1 with _ | p
  · rcases h2 : jsGet b l.2.1 with _ | q <;>
      rcases h3 : jsGet b l.2.2 with _ | r <;>
        simp [lineWinner, satLineB, h1, h2, h3]
  · rcases h2 : jsGet b l.2.1 with _ | q
    · simp [lineWinner, satLineB, h1, h2]
    · rcases h3 : jsGet b l.2.2 with _ | r
      · simp [lineWinner, satLineB, h1, h2, h3]
      · by_cases hq : q = p <;> by_cases hr : r = p
        · subst hq
          subst hr
          simp [lineWinner, satLineB, h1, h2, h3]
        · subst hq
          have hpr : ¬ (q = r) := fun he => hr he.symm
          simp [lineWinner, satLineB, h1, h2, h3, hr, hpr]
        · have hpq : ¬ (p = q) := fun he => hq he.symm
          simp [lineWinner, satLineB, h1, h2, h3, hq, hpq]
        · have hpq : ¬ (p = q) := fun he => hq he.symm
          simp [lineWinner, satLineB, h1, h2, h3, hq, hpq]

theorem satLineB_isSome {b : Board} {l : Nat × Nat × Nat}
    (h : satLineB b l = true) : ∃ p, jsGet b l.1 = some p := by
  rw [satLineB] at h
  rcases h1 : jsGet b l.1 with _ | p
  · rw [h1] at h
    rcases jsGet b l.2.1 with _ | q <;> rcases jsGet b l.2.2 with _ | r <;> simp at h
  · exact ⟨p, rfl⟩

theorem findSome?_lineWinner (b : Board) :
    ∀ L : List (Nat × Nat × Nat),
      L.findSome? (lineWinner b)
        = (L.find? (satLineB b)).bind fun l => (jsGet b l.1).map fun p => (p, l) := by
  intro L
  induction L with
  | nil => rfl
  | cons l L ih =>
      by_cases hs : satLineB b l = true
      · obtain ⟨p, hp⟩ := satLineB_isSome hs
        rw [List.findSome?_cons, lineWinner_eq_ite, if_pos hs,
          List.find?_cons_of_pos _ hs]
        simp [hp]
      · rw [List.findSome?_cons, lineWinner_eq_ite, if_neg hs,
          List.find?_cons_of_neg _ hs]
        exact ih

/-- The code's `calculateWinner` equals the spec's first-satisfied-line
evaluator. -/
theorem calculateWinner_eq_specWinner (b : Board) :
    calculateWinner b = specWinner b :=
  findSome?_lineWinner b lines

theorem outcome_win_iff {b : Board} {p : Player} {l : Nat × Nat × Nat} :
    outcome b = .Win p l ↔ calculateWinner b = some (p, l) := by
  rw [outcome]
  rcases h : calculateWinner b with _ | ⟨q, m⟩
  · by_cases ha : b.all (·.isSome) <;> simp [ha]
  · simp

theorem outcome_draw_iff {b : Board} :
    outcome b = .Draw ↔ calculateWinner b = none ∧ b.all (·.isSome) = true := by
  rw [outcome]
  rcases h : calculateWinner b with _ | ⟨q, m⟩
  · by_cases ha : b.all (·.isSome) <;> simp [ha]
  · simp

theorem outcome_undecided_iff {b : Board} :
    outcome b = .Undecided
      ↔ calculateWinner b = none ∧ b.all (·.isSome) = false := by
  rw [outcome]
  rcases h : calculateWinner b with _ | ⟨q, m⟩
  · by_cases ha : b.all (·.isSome) <;> simp [ha]
  · simp

theorem outcome_undecided_winner {b : Board} (h : outcome b = .Undecided) :
    calculateWinner b = none :=
  (outcome_undecided_iff.mp h).1

/-! ### A board holding a single mark has no winner -/

theorem lineWinner_single {b : Board} {j : Nat}
    (hb : ∀ k, k ≠ j → jsGet b k = none)
    (a₁ a₂ a₃ : Nat) (h12 : a₁ ≠ a₂) :
    lineWinner b (a₁, a₂, a₃) = none := by
  by_cases hja : j = a₁
  · have h2 : jsGet b a₂ = none := hb a₂ (by omega)
    rcases h1 : jsGet b (a₁, a₂, a₃).1 with _ | p
    · rw [lineWinner, h1]
    · rw [lineWinner, h1]
      simp [h2]
  · have h1 : jsGet b a₁ = none := hb a₁ (by omega)
    rw [lineWinner]
    simp [h1]

theorem calculateWinner_single {b : Board} {j : Nat}
    (hb : ∀ k, k ≠ j → jsGet b k = none) :
    calculateWinner b = none := by
  have e1 := lineWinner_single hb 0 1 2 (by omega)
  have e2 := lineWinner_single hb 3 4 5 (by omega)
  have e3 := lineWinner_single hb 6 7 8 (by omega)
  have e4 := lineWinner_single hb 0 3 6 (by omega)
  have e5 := lineWinner_single hb 1 4 7 (by omega)
  have e6 := lineWinner_single hb 2 5 8 (by omega)
  have e7 := lineWinner_single hb 0 4 8 (by omega)
  have e8 := lineWinner_single hb 2 4 6 (by omega)
  rw [calculateWinner, lines]
  rw [List.findSome?_cons, e1, List.findSome?_cons, e2, List.findSome?_cons, e3,
    List.findSome?_cons, e4, List.findSome?_cons, e5, List.findSome?_cons, e6,
    List.findSome?_cons, e7, List.findSome?_cons, e8]
  rfl

theorem specWinner_isSome_iff (b : Board) :
    (specWinner b).isSome = true ↔ ∃ l ∈ lines, satLineB b l = true := by
  rw [specWinner]
  constructor
  · intro h
    rcases hf : lines.find? (satLineB b) with _ | l₀
    · rw [hf] at h
      simp at h
    · exact ⟨l₀, List.mem_of_find?_eq_some hf, List.find?_some hf⟩
  · rintro ⟨l, hl, hsat⟩
    obtain ⟨l₀, hf⟩ := Option.isSome_iff_exists.mp
      (List.find?_isSome.mpr ⟨l, hl, hsat⟩)
    obtain ⟨p, hp⟩ := satLineB_isSome (List.find?_some hf)
    rw [hf]
    simp [hp]

theorem outcome_win_exists_iff (b : Board) :
    (∃ p l, outcome b = .Win p l) ↔ (calculateWinner b).isSome = true := by
  constructor
  · rintro ⟨p, l, h⟩
    rw [outcome_win_iff.mp h]
    rfl
  · intro h
    obtain ⟨⟨p, l⟩, hpl⟩ := Option.isSome_iff_exists.mp h
    exact ⟨p, l, outcome_win_iff.mpr hpl⟩

/-! ### The claims -/

/-- C1: for every reachable engine state and every cell index in 0..8, if
the cell of the board at `CurrentIndex` is occupied or that board's outcome
is not `Undecided`, `handleClick` is a silent no-op: it is a total function
(nothing is raised) and the state — history, step number and turn flag, and
hence every derived view — is returned unchanged. -/
theorem C1_rejection_is_noop {s : GameState} (hs : Reachable s) (i : Nat)
    (hi : i ≤ 8)
    (h : (jsGet (currentBoard s) i).isSome = true
        ∨ outcome (currentBoard s) ≠ .Undecided) :
    handleClick i s = s := by
  have inv := reachable_inv hs
  rcases h with h | h
  · refine handleClick_rejected (Or.inr ?_)
    rw [current_eq_currentBoard inv.step_lt]
    exact h
  · rcases ho : outcome (currentBoard s) with _ | ⟨p, l⟩ | _
    · exact absurd ho h
    · have hw := outcome_win_iff.mp ho
      refine handleClick_rejected (Or.inl ?_)
      rw [hw]
      rfl
    · obtain ⟨hw, hall⟩ := outcome_draw_iff.mp ho
      have hlen := currentBoard_len9 inv
      have hi9 : i < (currentBoard s).length := by omega
      have hocc : (jsGet (currentBoard s) i).isSome = true := by
        rw [jsGet, List.getD_eq_getElem _ _ hi9]
        exact List.all_eq_true.mp hall _ (List.getElem_mem hi9)
      refine handleClick_rejected (Or.inr ?_)
      rw [current_eq_currentBoard inv.step_lt]
      exact hocc

/-- C1 witness: after X plays cell 0 from a fresh game, clicking cell 0
again leaves the state unchanged. -/
theorem C1_witness :
    handleClick 0 (useEffectStep (handleClick 0 initState))
      = useEffectStep (handleClick 0 initState) :=
  C1_rejection_is_noop (Reachable.click Reachable.init (by omega)) 0 (by omega)
    (Or.inl (by decide))

/-- C2: the Outcome Evaluator. `calculateWinner` returns exactly the first
line of the fixed enumeration (rows, then columns, then diagonals — the
order of `lines`) whose three cells are equal and non-Empty, together with
that mark, and `null` when no line is satisfied, crashing on no board; the
derived outcome is `Win` exactly when some line is satisfied, `Draw`
exactly when no line is satisfied and no cell is empty, `Undecided`
otherwise — and never `Win` and `Draw` for the same board. -/
theorem C2_outcome_evaluator (b : Board) :
    calculateWinner b = specWinner b
    ∧ ((∃ p l, outcome b = .Win p l) ↔ ∃ l ∈ lines, satLineB b l = true)
    ∧ (outcome b = .Draw
        ↔ ((∀ l ∈ lines, satLineB b l = false) ∧ ∀ c ∈ b, c.isSome = true))
    ∧ (∀ p l, ¬ (outcome b = .Win p l ∧ outcome b = .Draw)) := by
  have hspec := calculateWinner_eq_specWinner b
  refine ⟨hspec, ?_, ?_, ?_⟩
  · rw [outcome_win_exists_iff, hspec]
    exact specWinner_isSome_iff b
  · rw [outcome_draw_iff]
    constructor
    · rintro ⟨hw, hall⟩
      refine ⟨?_, List.all_eq_true.mp hall⟩
      intro l hl
      by_contra hsat
      have : (specWinner b).isSome = true :=
        (specWinner_isSome_iff b).mpr ⟨l, hl, by simpa using hsat⟩
      rw [← hspec, hw] at this
      simp at this
    · rintro ⟨hnone, hall⟩
      refine ⟨?_, List.all_eq_true.mpr hall⟩
      rcases hw : calculateWinner b with _ | ⟨p, l⟩
      · rfl
      · have : (specWinner b).isSome = true := by
          rw [← hspec, hw]
          rfl
        obtain ⟨l₀, hl₀, hsat⟩ := (specWinner_isSome_iff b).mp this
        rw [hnone l₀ hl₀] at hsat
        exact Bool.noConfusion hsat
  · rintro p l ⟨h1, h2⟩
    rw [h1] at h2
    exact Outcome.noConfusion h2

/-- C3: an accepted move truncates the history to the entries up to
`CurrentIndex`, appends the single new board, and sets `CurrentIndex` to
its successor; in particular from any reachable state with
`CurrentIndex = 3`, `jumpTo 1` followed by a move on an empty cell of the
board at index 1 leaves a history of length exactly 3. -/
theorem C3_branching {s : GameState} (hs : Reachable s) :
    (∀ i, outcome (currentBoard s) = .Undecided → jsGet (currentBoard s) i = none →
        (handleClick i s).history
            = s.history.take (s.stepNumber + 1)
              ++ [jsSet (currentBoard s) i (some (markToPlace s))]
          ∧ (handleClick i s).stepNumber = s.stepNumber + 1)
    ∧ (s.stepNumber = 3 → ∀ i, jsGet (s.history.getD 1 []) i = none →
        (handleClick i (useEffectStep (jumpTo 1 s))).history.length = 3) := by
  have inv := reachable_inv hs
  constructor
  · intro i ho hc
    have hw := outcome_undecided_winner ho
    rw [handleClick_accepted inv.step_lt hw hc]
    exact ⟨rfl, rfl⟩
  · intro h3 i hc
    have hlen4 : 3 < s.history.length := by
      have := inv.step_lt
      omega
    have hd1 : diffOne (s.history.getD 0 []) (s.history.getD 1 []) :=
      inv.chain 0 (by omega)
    rw [inv.head_empty] at hd1
    obtain ⟨_, j, p, _, _, _, hother⟩ := hd1
    have hw1 : calculateWinner (s.history.getD 1 []) = none :=
      calculateWinner_single
        (fun k hk => (hother k hk).trans (jsGet_emptyBoard k))
    have hacc : (handleClick i (useEffectStep (jumpTo 1 s))).history.length
        = (useEffectStep (jumpTo 1 s)).stepNumber + 2 :=
      accepted_length (by show (1 : Nat) < s.history.length; omega)
        (by show calculateWinner (s.history.getD 1 []) = none; exact hw1)
        (by show jsGet (s.history.getD 1 []) i = none; exact hc)
    rw [hacc]
    rfl

/-- C3 witness: play cells 0, 3, 1 from a fresh game (reaching
`CurrentIndex = 3`), jump to move 1, then click the empty cell 2: the
resulting history has exactly 3 entries. -/
theorem C3_witness :
    (handleClick 2 (useEffectStep (jumpTo 1
        (useEffectStep (handleClick 1 (useEffectStep (handleClick 3
          (useEffectStep (handleClick 0 initState))))))))).history.length = 3 :=
  (C3_branching
      (Reachable.click
        (Reachable.click (Reachable.click Reachable.init (by omega)) (by omega))
        (by omega))).2
    (by decide) 2 (by decide)

/-- C4: in every reachable state the persisted turn flag agrees with the
parity of `CurrentIndex` — fresh game, after reset and after any jump —
and an accepted move at `CurrentIndex = k` writes PlayerA's "X" into the
new current board if `k` is even, PlayerB's "O" if `k` is odd. -/
theorem C4_turn_parity {s : GameState} (hs : Reachable s) :
    s.xIsNext = decide (s.stepNumber % 2 = 0)
    ∧ ∀ i, outcome (currentBoard s) = .Undecided → jsGet (currentBoard s) i = none →
        jsGet ((handleClick i s).history.getD (handleClick i s).stepNumber []) i
          = some (if s.stepNumber % 2 = 0 then Player.X else Player.O) := by
  have inv := reachable_inv hs
  refine ⟨inv.parity, ?_⟩
  intro i ho hc
  have hw := outcome_undecided_winner ho
  rw [handleClick_accepted inv.step_lt hw hc]
  have htlen : (s.history.take (s.stepNumber + 1)).length = s.stepNumber + 1 := by
    rw [List.length_take]
    have := inv.step_lt
    omega
  have hlast : (s.history.take (s.stepNumber + 1)
      ++ [jsSet (currentBoard s) i (some (markToPlace s))]).getD (s.stepNumber + 1) []
      = jsSet (currentBoard s) i (some (markToPlace s)) := by
    rw [List.getD_append_right _ _ _ _ (by omega), htlen]
    simp
  show jsGet ((s.history.take (s.stepNumber + 1)
      ++ [jsSet (currentBoard s) i (some (markToPlace s))]).getD (s.stepNumber + 1) []) i
    = some (if s.stepNumber % 2 = 0 then Player.X else Player.O)
  rw [hlast, jsGet_jsSet_self, markToPlace, inv.parity]
  by_cases hp : s.stepNumber % 2 = 0 <;> simp [hp]

/-- C4 witness: from the fresh game (flag `true`, step 0), clicking the
empty cell 0 writes "X", matching the even parity of step 0. -/
theorem C4_witness :
    initState.xIsNext = decide (initState.stepNumber % 2 = 0)
    ∧ jsGet ((handleClick 0 initState).history.getD
          (handleClick 0 initState).stepNumber []) 0
        = some (if initState.stepNumber % 2 = 0 then Player.X else Player.O) :=
  ⟨(C4_turn_parity Reachable.init).1,
   (C4_turn_parity Reachable.init).2 0 (by decide) (by decide)⟩

/-- C5: immediately after any accepted move (the code's own acceptance
test: no winner on the current board and the clicked cell empty) the
history length equals the new `CurrentIndex + 1`; and `resetGame`,
unconditionally from any reachable state, yields a single-entry history
holding the all-empty board, with `CurrentIndex = 0`. -/
theorem C5_length_invariant {s : GameState} (hs : Reachable s) :
    (∀ i, calculateWinner (currentBoard s) = none → jsGet (currentBoard s) i = none →
        (handleClick i s).history.length = (handleClick i s).stepNumber + 1)
    ∧ (resetGame s).history.length = 1
    ∧ (resetGame s).stepNumber = 0
    ∧ (resetGame s).history.getD 0 [] = emptyBoard := by
  have inv := reachable_inv hs
  refine ⟨?_, rfl, rfl, rfl⟩
  intro i hw hc
  rw [handleClick_accepted inv.step_lt hw hc]
  simp only [List.length_append, List.length_take, List.length_cons, List.length_nil]
  have := inv.step_lt
  omega

/-- C5 witness: accepting the first click on cell 0 of a fresh game gives
`length = stepNumber + 1`, and reset from the fresh game re-establishes the
single empty entry. -/
theorem C5_witness :
    (handleClick 0 initState).history.length = (handleClick 0 initState).stepNumber + 1
    ∧ (resetGame initState).history.length = 1
    ∧ (resetGame initState).stepNumber = 0
    ∧ (resetGame initState).history.getD 0 [] = emptyBoard :=
  ⟨(C5_length_invariant Reachable.init).1 0 (by decide) (by decide),
   (C5_length_invariant Reachable.init).2.1,
   (C5_length_invariant Reachable.init).2.2.1,
   (C5_length_invariant Reachable.init).2.2.2⟩

/-- C6 counterexample: clicking the out-of-range cell 9 on a fresh game is
NOT a no-op — `handleClick` performs no bounds check, `current[9]` is
`undefined` (falsy), so the move is accepted, a 10-cell board is appended
and `CurrentIndex` advances. -/
theorem C6_counterexample : handleClick 9 initState ≠ initState := by decide

/-- C6 amended: `handleClick` never checks that `cellIndex` is in 0..8.
For `cellIndex ≥ 9` (still no fault: every read of an absent index yields
`undefined`) the move is rejected only by the winner check: whenever the
current board has no winner, the click is accepted — the truncated history
gets a new board extended up to `cellIndex` with the mark written there,
and `CurrentIndex` advances — so History and CurrentIndex change. -/
theorem C6_amended_no_bounds_check {s : GameState} (hs : Reachable s) (i : Nat)
    (hi : 9 ≤ i) (hw : calculateWinner (currentBoard s) = none) :
    handleClick i s
        = { history := s.history.take (s.stepNumber + 1)
              ++ [jsSet (currentBoard s) i (some (markToPlace s))],
            stepNumber := s.stepNumber + 1,
            xIsNext := !s.xIsNext }
      ∧ handleClick i s ≠ s := by
  have inv := reachable_inv hs
  have hc : jsGet (currentBoard s) i = none := by
    rw [jsGet, List.getD_eq_default]
    rw [currentBoard_len9 inv]
    omega
  refine ⟨handleClick_accepted inv.step_lt hw hc, ?_⟩
  intro he
  have hstep := congrArg GameState.stepNumber he
  rw [handleClick_accepted inv.step_lt hw hc] at hstep
  simp at hstep

/-- C6 witness: on the fresh game (no winner), clicking cell 9 appends the
extended board and changes the state. -/
theorem C6_witness :
    handleClick 9 initState
        = { history := initState.history.take (initState.stepNumber + 1)
              ++ [jsSet (currentBoard initState) 9 (some (markToPlace initState))],
            stepNumber := initState.stepNumber + 1,
            xIsNext := !initState.xIsNext }
      ∧ handleClick 9 initState ≠ initState :=
  C6_amended_no_bounds_check Reachable.init 9 (by omega) (by decide)

/-- C7 counterexample: jumping to index 5 from the fresh game (whose only
valid index is 0) does NOT leave the engine state unchanged —
`jumpTo` stores the index without any range check. -/
theorem C7_counterexample : jumpTo 5 initState ≠ initState := by decide

/-- C7 amended: `jumpTo` itself raises nothing, but it is an unconditional
assignment: it stores the given index as `CurrentIndex` (and re-derives the
turn flag from its parity) with no clamping or rejection, so an
out-of-range index sends `CurrentIndex` outside `[0, len(History)-1]` and
the derived current-board view is no longer defined. -/
theorem C7_amended_unconditional_jump (s : GameState) (m : Nat) :
    jumpTo m s
        = { history := s.history, stepNumber := m, xIsNext := decide (m % 2 = 0) }
    ∧ (s.history.length ≤ m →
        ¬ (jumpTo m s).stepNumber < (jumpTo m s).history.length) := by
  constructor
  · rfl
  · intro hm hlt
    rw [jumpTo] at hlt
    simp at hlt
    omega

/-- C7 witness: index 5 is out of range for the fresh game's history and
the stored `CurrentIndex` lies outside the history bounds afterwards. -/
theorem C7_witness :
    initState.history.length ≤ 5
    ∧ ¬ (jumpTo 5 initState).stepNumber < (jumpTo 5 initState).history.length :=
  ⟨by decide, (C7_amended_unconditional_jump initState 5).2 (by decide)⟩

/-- C8: in every reachable state the history is non-empty, starts with the
all-empty board, and each entry differs from its predecessor by exactly one
cell changed from Empty to a mark; moreover no operation mutates an
existing entry: `handleClick` preserves every entry other than the one it
appends, `jumpTo` leaves the history untouched, and `resetGame` rebuilds
the same first entry. -/
theorem C8_history_integrity {s : GameState} (hs : Reachable s) :
    s.history ≠ []
    ∧ s.history.getD 0 [] = emptyBoard
    ∧ (∀ k, k + 1 < s.history.length →
        diffOne (s.history.getD k []) (s.history.getD (k + 1) []))
    ∧ (∀ i k, k + 1 < (handleClick i s).history.length →
        (handleClick i s).history.getD k [] = s.history.getD k [])
    ∧ (∀ m, (jumpTo m s).history = s.history)
    ∧ (resetGame s).history.getD 0 [] = s.history.getD 0 [] := by
  have inv := reachable_inv hs
  have hne : s.history ≠ [] := by
    intro he
    have := inv.step_lt
    rw [he] at this
    simp at this
  refine ⟨hne, inv.head_empty, inv.chain, ?_, fun _ => rfl, ?_⟩
  · intro i k hk
    by_cases hw : (calculateWinner (currentBoard s)).isSome
    · rw [handleClick_rejected (Or.inl hw)]
    by_cases hc : (jsGet ((s.history.take (s.stepNumber + 1)).getLastD []) i).isSome
    · rw [handleClick_rejected (Or.inr hc)]
    · have hw' : calculateWinner (currentBoard s) = none := by
        rcases hq : calculateWinner (currentBoard s) with _ | q
        · rfl
        · rw [hq] at hw
          simp at hw
      have hc' : jsGet (currentBoard s) i = none := by
        rw [current_eq_currentBoard inv.step_lt] at hc
        rcases hq : jsGet (currentBoard s) i with _ | q
        · rfl
        · rw [hq] at hc
          simp at hc
      have hstep := inv.step_lt
      rw [handleClick_accepted inv.step_lt hw' hc'] at hk ⊢
      simp only [List.length_append, List.length_take, List.length_cons,
        List.length_nil] at hk
      have hk' : k < s.stepNumber + 1 := by omega
      show (s.history.take (s.stepNumber + 1)
          ++ [jsSet (currentBoard s) i (some (markToPlace s))]).getD k []
        = s.history.getD k []
      rw [List.getD_append _ _ _ _ (by rw [List.length_take]; omega)]
      exact getD_take _ _ _ _ hk'
  · show ([emptyBoard] : List Board).getD 0 [] = s.history.getD 0 []
    rw [inv.head_empty]
    rfl

/-- C8 witness: the fresh game's history is non-empty and starts with the
empty board. -/
theorem C8_witness :
    initState.history ≠ [] ∧ initState.history.getD 0 [] = emptyBoard :=
  ⟨(C8_history_integrity Reachable.init).1,
   (C8_history_integrity Reachable.init).2.1⟩

/-- C9: the status projection is derived purely from the board at
`CurrentIndex`: it shows the winner when the outcome is a win, the draw
text when it is a draw, and otherwise the next player determined by the
parity of `CurrentIndex`; the winning line is exposed exactly when the
outcome is a win; and the move sequence 0,3,1,4,2 from a fresh game ends
with outcome `Win PlayerA (0,1,2)` and the winner status for PlayerA. -/
theorem C9_status_projection {s : GameState} (hs : Reachable s) :
    statusOf s
        = (match outcome (currentBoard s) with
            | .Win p _ => Status.winner p
            | .Draw => Status.draw
            | .Undecided =>
                Status.nextPlayer (if s.stepNumber % 2 = 0 then Player.X else Player.O))
    ∧ (∀ l, winningLineOf s = some l ↔ ∃ p, outcome (currentBoard s) = .Win p l)
    ∧ (outcome (currentBoard (playMoves [0, 3, 1, 4, 2] initState)) = .Win .X (0, 1, 2)
        ∧ statusOf (playMoves [0, 3, 1, 4, 2] initState) = .winner .X) := by
  have inv := reachable_inv hs
  refine ⟨?_, ?_, by decide, by decide⟩
  · rcases hw : calculateWinner (currentBoard s) with _ | ⟨p, l⟩
    · by_cases hall : (currentBoard s).all (·.isSome)
      · have ho : outcome (currentBoard s) = .Draw := outcome_draw_iff.mpr ⟨hw, hall⟩
        rw [ho]
        simp [statusOf, gameStatus, isDraw, hw, hall]
      · have ho : outcome (currentBoard s) = .Undecided :=
          outcome_undecided_iff.mpr ⟨hw, by simpa using hall⟩
        rw [ho]
        simp only [statusOf, gameStatus, isDraw, hw, Option.map_none, Option.isNone_none,
          Bool.true_and]
        rw [if_neg (by simpa using hall), inv.parity]
        by_cases hp : s.stepNumber % 2 = 0 <;> simp [hp]
    · have ho : outcome (currentBoard s) = .Win p l := outcome_win_iff.mpr hw
      rw [ho]
      simp [statusOf, gameStatus, hw]
  · intro l
    rcases hw : calculateWinner (currentBoard s) with _ | ⟨q, m⟩
    · rw [winningLineOf, hw]
      constructor
      · intro hml
        exact Option.noConfusion hml
      · rintro ⟨p, hp⟩
        have := outcome_win_iff.mp hp
        rw [hw] at this
        exact Option.noConfusion this
    · have ho : outcome (currentBoard s) = .Win q m := outcome_win_iff.mpr hw
      rw [winningLineOf, hw]
      constructor
      · intro hml
        have hml' : m = l := by simpa using hml
        exact ⟨q, by rw [ho, hml']⟩
      · rintro ⟨p, hp⟩
        rw [ho] at hp
        simp only [Outcome.Win.injEq] at hp
        exact congrArg some hp.2

/-- C9 witness: on the fresh game the rendered status is the next-player
text for the parity of step 0. -/
theorem C9_witness :
    statusOf initState
      = (match outcome (currentBoard initState) with
          | .Win p _ => Status.winner p
          | .Draw => Status.draw
          | .Undecided =>
              Status.nextPlayer
                (if initState.stepNumber % 2 = 0 then Player.X else Player.O)) :=
  (C9_status_projection Reachable.init).1

/-- C10: acceptance is gated solely on the board at `CurrentIndex`: in any
reachable state whose current board is undecided, a click on one of its
empty cells is accepted (advancing `CurrentIndex` and growing the history)
with no condition on later, not-yet-truncated entries; in particular after
the winning sequence 0,3,1,4,2 and `jumpTo 1`, the stale entry at index 5
still holds a won board, yet the click on empty cell 2 is accepted. -/
theorem C10_acceptance_gated_on_current {s : GameState} (hs : Reachable s) :
    (∀ i, i ≤ 8 → outcome (currentBoard s) = .Undecided →
        jsGet (currentBoard s) i = none →
        (handleClick i s).stepNumber = s.stepNumber + 1
        ∧ (handleClick i s).history.length = s.stepNumber + 2
        ∧ handleClick i s ≠ s)
    ∧ (outcome ((useEffectStep (jumpTo 1 (playMoves [0, 3, 1, 4, 2] initState))).history.getD 5 [])
          = .Win .X (0, 1, 2)
        ∧ (handleClick 2 (useEffectStep (jumpTo 1
              (playMoves [0, 3, 1, 4, 2] initState)))).stepNumber = 2
        ∧ handleClick 2 (useEffectStep (jumpTo 1 (playMoves [0, 3, 1, 4, 2] initState)))
            ≠ useEffectStep (jumpTo 1 (playMoves [0, 3, 1, 4, 2] initState))) := by
  have inv := reachable_inv hs
  refine ⟨?_, by decide, by decide, by decide⟩
  intro i _ ho hc
  have hw := outcome_undecided_winner ho
  refine ⟨?_, accepted_length inv.step_lt hw hc, ?_⟩
  · rw [handleClick_accepted inv.step_lt hw hc]
  · intro he
    have hstep := congrArg GameState.stepNumber he
    rw [handleClick_accepted inv.step_lt hw hc] at hstep
    simp at hstep

/-- C10 witness: the first click on cell 0 of the fresh (undecided) game is
accepted: `CurrentIndex` becomes 1 and the history grows to 2 entries. -/
theorem C10_witness :
    (handleClick 0 initState).stepNumber = initState.stepNumber + 1
    ∧ (handleClick 0 initState).history.length = initState.stepNumber + 2
    ∧ handleClick 0 initState ≠ initState :=
  (C10_acceptance_gated_on_current Reachable.init).1 0 (by omega)
    (by decide) (by decide)
